import Mathlib

/-
Verification development for the s3_objects_merger repository.

The single source file `s3_objects_merger.py` implements `S3ObjectsMerger.merge`:
validate the bucket name and target key, probe the bucket, normalize the source
key namespace string, list the stored objects under it, concatenate the bodies of
the objects whose short name starts with a given initial name and ends with the
target key's extension, delete each object whose short name starts with the
initial name, upload the concatenation at the target key, and optionally delete
the two marker keys.

The embedding below models the object store as a list of key/content pairs and
`merge` as a pure function returning the outcome, the list of store calls
issued, and the final store contents.
-/

namespace S3M

/-- Python `s.startswith(p)`: `p` is a character-list prefix of `s`. -/
def pyStartsWith (s p : String) : Bool := p.data.isPrefixOf s.data

/-- Python `s.endswith(p)`: `p` is a character-list suffix of `s`. -/
def pyEndsWith (s p : String) : Bool := p.data.isSuffixOf s.data

/-- Python `s[:-1]`: the string without its last character. -/
def strDropLastChar (s : String) : String := ⟨s.data.dropLast⟩

/-- Concatenation of a list of strings. -/
def strConcat : List String → String
  | [] => ""
  | s :: rest => s ++ strConcat rest

/-- The characters after the last occurrence of `sep`, i.e. Python
`l.split(sep)[-1]` at character-list level. -/
def lastPartAfter (sep : Char) (l : List Char) : List Char :=
  l.foldl (fun acc c => if c = sep then [] else acc ++ [c]) []

/-- Embeds `__extract_object_name_from_key`: `object_key.split('/')[-1]`. -/
def extract_object_name_from_key (key : String) : String :=
  ⟨lastPartAfter '/' key.data⟩

/-- Embeds `__extract_object_extension_from_key`: `new_object_key.split('.')[-1]`. -/
def extract_object_extension_from_key (key : String) : String :=
  ⟨lastPartAfter '.' key.data⟩

/-- Worker for `splitLines`: accumulates the current line and splits at each
newline character, with a trailing newline producing no empty final line. -/
def splitLinesGo : List Char → List Char → List (List Char)
  | cur, [] => [cur]
  | cur, c :: rest =>
      if c = '\n' then
        if rest = [] then [cur] else cur :: splitLinesGo [] rest
      else splitLinesGo (cur ++ [c]) rest

/-- The decoded lines of an object body, as produced by iterating the body
line by line: no lines for an empty body, and a trailing newline does not
produce an empty final line. -/
def splitLines (s : String) : List String :=
  if s.data = [] then [] else (splitLinesGo [] s.data).map (fun l => ⟨l⟩)

/-- Embeds `__merge_objects_line_by_line`: append each decoded line of the
downloaded body to the accumulator, each followed by a newline. -/
def merge_objects_line_by_line (content acc : String) : String :=
  (splitLines content).foldl (fun a l => a ++ l ++ "\n") acc

/-- Embeds `__add_separator_to_prefix_if_absent`. -/
def add_separator_to_prefix_if_absent (p : String) : String :=
  if p ≠ "" ∧ pyEndsWith p "/" = false then p ++ "/" else p

theorem strConcat_cons (a : String) (l : List String) :
    strConcat (a :: l) = a ++ strConcat l := rfl

theorem str_append_empty (s : String) : s ++ "" = s := by
  apply String.ext
  simp

theorem str_empty_append (s : String) : "" ++ s = s := by
  apply String.ext
  simp

theorem pyStartsWith_append_left (p n : String) : pyStartsWith (p ++ n) p = true := by
  simp [pyStartsWith]

theorem pyEndsWith_append_self (p u : String) : pyEndsWith (p ++ u) u = true := by
  simp [pyEndsWith]

theorem pyEndsWith_append_right (s t u : String) (h : pyEndsWith t u = true) :
    pyEndsWith (s ++ t) u = true := by
  simp only [pyEndsWith, List.isSuffixOf_iff_suffix, String.data_append] at h ⊢
  exact h.trans (List.suffix_append s.data t.data)

theorem pyEndsWith_empty_newline : pyEndsWith "" "\n" = false := by decide

theorem foldl_append_lines (ls : List String) (acc : String) :
    ls.foldl (fun a l => a ++ l ++ "\n") acc
      = acc ++ strConcat (ls.map (fun l => l ++ "\n")) := by
  induction ls generalizing acc with
  | nil => simp [strConcat, str_append_empty]
  | cons x xs ih =>
      simp only [List.foldl_cons, List.map_cons, strConcat_cons, ih]
      simp [String.append_assoc]

theorem merge_objects_line_by_line_eq (c acc : String) :
    merge_objects_line_by_line c acc
      = acc ++ strConcat ((splitLines c).map (fun l => l ++ "\n")) :=
  foldl_append_lines _ _

theorem lastPartAfter_go_no_sep (sep : Char) (l : List Char) (acc : List Char)
    (h : sep ∉ l) :
    l.foldl (fun a c => if c = sep then [] else a ++ [c]) acc = acc ++ l := by
  induction l generalizing acc with
  | nil => simp
  | cons c cs ih =>
      have hc : c ≠ sep := fun hh => h (hh ▸ List.mem_cons_self c cs)
      have hcs : sep ∉ cs := fun hh => h (List.mem_cons_of_mem c hh)
      simp only [List.foldl_cons, if_neg (fun hh => hc hh)]
      rw [ih _ hcs, List.append_assoc]
      rfl

theorem lastPartAfter_no_sep (sep : Char) (l : List Char) (h : sep ∉ l) :
    lastPartAfter sep l = l := by
  unfold lastPartAfter
  rw [lastPartAfter_go_no_sep sep l [] h]
  rfl

theorem lastPartAfter_append_sep (sep : Char) (p n : List Char)
    (hp : p = [] ∨ ∃ q, p = q ++ [sep]) (hn : sep ∉ n) :
    lastPartAfter sep (p ++ n) = n := by
  rcases hp with h0 | ⟨q, hq⟩
  · rw [h0]
    exact lastPartAfter_no_sep sep n hn
  · unfold lastPartAfter
    have hstep : ∀ a : List Char,
        List.foldl (fun acc c => if c = sep then [] else acc ++ [c]) a [sep] = [] := by
      intro a
      simp
    rw [hq, List.append_assoc, List.foldl_append, List.foldl_append, hstep]
    rw [lastPartAfter_go_no_sep sep n [] hn]
    rfl

theorem sep_not_mem_foldl (sep : Char) (l : List Char) (acc : List Char)
    (hacc : sep ∉ acc) :
    sep ∉ l.foldl (fun a c => if c = sep then [] else a ++ [c]) acc := by
  induction l generalizing acc with
  | nil => simpa using hacc
  | cons c cs ih =>
      simp only [List.foldl_cons]
      by_cases hc : c = sep
      · rw [if_pos hc]
        exact ih [] (by simp)
      · rw [if_neg hc]
        apply ih
        intro hmem
        rw [List.mem_append, List.mem_singleton] at hmem
        rcases hmem with h1 | h2
        · exact hacc h1
        · exact hc h2.symm

theorem sep_not_mem_lastPartAfter (sep : Char) (l : List Char) :
    sep ∉ lastPartAfter sep l :=
  sep_not_mem_foldl sep l [] (by simp)

theorem slash_not_mem_extract_name (k : String) :
    '/' ∉ (extract_object_name_from_key k).data :=
  sep_not_mem_lastPartAfter '/' k.data

theorem extract_name_concat (p n : String)
    (hp : p = "" ∨ pyEndsWith p "/" = true) (hn : '/' ∉ n.data) :
    extract_object_name_from_key (p ++ n) = n := by
  apply String.ext
  show lastPartAfter '/' (p ++ n).data = n.data
  rw [String.data_append]
  apply lastPartAfter_append_sep
  · rcases hp with h0 | hs
    · left
      rw [h0]
    · right
      simp only [pyEndsWith, List.isSuffixOf_iff_suffix] at hs
      rcases hs with ⟨q, hq⟩
      exact ⟨q, hq.symm⟩
  · exact hn

theorem add_separator_shape (p : String) :
    add_separator_to_prefix_if_absent p = ""
      ∨ pyEndsWith (add_separator_to_prefix_if_absent p) "/" = true := by
  unfold add_separator_to_prefix_if_absent
  by_cases h : p ≠ "" ∧ pyEndsWith p "/" = false
  · rw [if_pos h]
    right
    exact pyEndsWith_append_self p "/"
  · rw [if_neg h]
    push_neg at h
    by_cases h0 : p = ""
    · left; exact h0
    · right
      have := h h0
      simpa using this

/-- A stored object: key and body (decoded content). -/
structure S3Object where
  key : String
  content : String
deriving DecidableEq

/-- Result of the `head_bucket` probe: success, or a ClientError with an
error code string. -/
inductive HeadBucketResult where
  | ok : HeadBucketResult
  | clientError : String → HeadBucketResult
deriving DecidableEq

/-- The errors `merge` can raise: `ValueError` (invalidArgument),
`BucketNotFoundException`, `ObjectNotFoundException` (objectNotFound, carrying
the message), or an uncaught store `ClientError` (carrying the error code). -/
inductive MergeError where
  | invalidArgument : String → MergeError
  | bucketNotFound : MergeError
  | objectNotFound : String → MergeError
  | clientError : String → MergeError
deriving DecidableEq

/-- One network call against the store, as issued by `merge`. -/
inductive StoreCall where
  | headBucket : String → StoreCall
  | listObjectsV2 : String → String → StoreCall
  | getObject : String → String → StoreCall
  | deleteObject : String → String → StoreCall
  | upload : String → String → String → StoreCall
  | close : StoreCall
deriving DecidableEq

/-- The external world a merge call runs against: the outcome the bucket
probe would report, and the store contents. -/
structure World where
  head : HeadBucketResult
  store : List S3Object
deriving DecidableEq

instance {ε α : Type} [DecidableEq ε] [DecidableEq α] : DecidableEq (Except ε α) :=
  fun a b =>
  match a, b with
  | Except.ok u, Except.ok v =>
      if h : u = v then isTrue (by rw [h]) else
        isFalse (fun hh => h (by cases hh; rfl))
  | Except.error e, Except.error f =>
      if h : e = f then isTrue (by rw [h]) else
        isFalse (fun hh => h (by cases hh; rfl))
  | Except.ok _, Except.error _ => isFalse (fun hh => Except.noConfusion hh)
  | Except.error _, Except.ok _ => isFalse (fun hh => Except.noConfusion hh)

/-- The observable behaviour of one `merge` call: the returned or raised
result, the sequence of store calls issued, and the final store contents. -/
structure Outcome where
  result : Except MergeError Unit
  trace : List StoreCall
  store : List S3Object
deriving DecidableEq

/-- `get_object`: body of the first stored object with the given key. -/
def getObject : List S3Object → String → Option String
  | [], _ => none
  | o :: rest, k => if o.key = k then some o.content else getObject rest k

/-- `delete_object`: removes every stored object with the given key
(idempotent; deleting a missing key is a no-op). -/
def deleteObject (store : List S3Object) (k : String) : List S3Object :=
  store.filter (fun o => o.key != k)

/-- `upload_fileobj`: stores the content at the key, overwriting. -/
def putObject (store : List S3Object) (k c : String) : List S3Object :=
  deleteObject store k ++ [⟨k, c⟩]

/-- `list_objects_v2(Bucket=…, Prefix=p)`: the objects whose key starts with
`p`, in store order. -/
def listObjects (store : List S3Object) (p : String) : List S3Object :=
  store.filter (fun o => pyStartsWith o.key p)

/-- Embeds `__check_if_bucket_exists` (lines 64-71): a ClientError with code
404 is translated to `BucketNotFoundException`; any other ClientError is
caught and not re-raised. -/
def check_if_bucket_exists : HeadBucketResult → Except MergeError Unit
  | HeadBucketResult.ok => Except.ok ()
  | HeadBucketResult.clientError code =>
      if code = "404" then Except.error MergeError.bucketNotFound else Except.ok ()

/-- Embeds the loop of `__merge_objects` (lines 98-108), one listed entry at a
time: derive the short name, rebuild the key as normalized-namespace ++ name;
when the name starts with the initial name, count it, download and append its
lines when the name also ends with the target extension, then delete the
rebuilt key. Returns the accumulator and count (or the uncaught store error),
the calls issued, and the store after the loop. -/
def merge_objects_loop (b pat prefx ext : String) :
    List S3Object → List S3Object → String → Nat →
      Except MergeError (String × Nat) × List StoreCall × List S3Object
  | [], store, acc, cnt => (Except.ok (acc, cnt), [], store)
  | e :: rest, store, acc, cnt =>
      let name := extract_object_name_from_key e.key
      let k := prefx ++ name
      if pyStartsWith name pat then
        if pyEndsWith name ext then
          match getObject store k with
          | none => (Except.error (MergeError.clientError "NoSuchKey"),
                     [StoreCall.getObject b k], store)
          | some c =>
              let r := merge_objects_loop b pat prefx ext rest (deleteObject store k)
                (merge_objects_line_by_line c acc) (cnt + 1)
              (r.1, StoreCall.getObject b k :: StoreCall.deleteObject b k :: r.2.1, r.2.2)
        else
          let r := merge_objects_loop b pat prefx ext rest (deleteObject store k) acc (cnt + 1)
          (r.1, StoreCall.deleteObject b k :: r.2.1, r.2.2)
      else
        merge_objects_loop b pat prefx ext rest store acc cnt

/-- Embeds `__merge_objects` (lines 94-114): run the loop over the listed
entries; if no entry had the initial name, raise `ObjectNotFoundException`
naming the pattern, otherwise return the accumulated content. -/
def merge_objects (b pat prefx ext : String) (entries store : List S3Object) :
    Except MergeError String × List StoreCall × List S3Object :=
  match merge_objects_loop b pat prefx ext entries store "" 0 with
  | (Except.error e, t, s) => (Except.error e, t, s)
  | (Except.ok (acc, cnt), t, s) =>
      if cnt = 0 then
        (Except.error (MergeError.objectNotFound
          ("Objects to merge not found with the initial name \"" ++ pat ++ "\"!")), t, s)
      else (Except.ok acc, t, s)

/-- Embeds `merge` after validation succeeded (lines 39-51): list under the
normalized namespace string (raising when empty), run the merge loop, strip
the last character, upload at the target key, optionally delete the two
marker keys, and close the client. -/
def merge_after_validation (w : World) (b k pat prefx : String) (flag : Bool) : Outcome :=
  let entries := listObjects w.store prefx
  if entries = [] then
    ⟨Except.error (MergeError.objectNotFound "Prefix not found!"),
     [StoreCall.headBucket b, StoreCall.listObjectsV2 b prefx], w.store⟩
  else
    let ext := extract_object_extension_from_key k
    match merge_objects b pat prefx ext entries w.store with
    | (Except.error e, t, s) =>
        ⟨Except.error e, StoreCall.headBucket b :: StoreCall.listObjectsV2 b prefx :: t, s⟩
    | (Except.ok content, t, s) =>
        let content2 := strDropLastChar content
        let s2 := putObject s k content2
        let base := StoreCall.headBucket b :: StoreCall.listObjectsV2 b prefx ::
          (t ++ [StoreCall.upload b k content2])
        if flag then
          ⟨Except.ok (),
           base ++ [StoreCall.deleteObject b (prefx ++ "_SUCCESS"),
                    StoreCall.deleteObject b (prefx ++ "._SUCCESS.crc"),
                    StoreCall.close],
           deleteObject (deleteObject s2 (prefx ++ "_SUCCESS")) (prefx ++ "._SUCCESS.crc")⟩
        else ⟨Except.ok (), base ++ [StoreCall.close], s2⟩

/-- Embeds `S3ObjectsMerger.merge` (lines 27-51): check the bucket name is
non-empty, probe the bucket, check the target key is non-empty, normalize the
source namespace string, then proceed. The client is closed only on the
successful path, mirroring line 51. -/
def merge (w : World) (b k pat pre : String) (flag : Bool) : Outcome :=
  if b = "" then
    ⟨Except.error (MergeError.invalidArgument "Bucket not informed!"), [], w.store⟩
  else
    match check_if_bucket_exists w.head with
    | Except.error e => ⟨Except.error e, [StoreCall.headBucket b], w.store⟩
    | Except.ok _ =>
        if k = "" then
          ⟨Except.error (MergeError.invalidArgument "Object key not informed!"),
           [StoreCall.headBucket b], w.store⟩
        else merge_after_validation w b k pat (add_separator_to_prefix_if_absent pre) flag

/-- Whether an entry's short name starts with the initial-name pattern
(the qualification test of the merge loop). -/
def qualifiesB (pat : String) (e : S3Object) : Bool :=
  pyStartsWith (extract_object_name_from_key e.key) pat

/-- Whether an entry qualifies and its short name also ends with the target
key's extension (the download-and-merge test of the merge loop). -/
def matchesB (pat ext : String) (e : S3Object) : Bool :=
  qualifiesB pat e && pyEndsWith (extract_object_name_from_key e.key) ext

/-- The key the loop rebuilds for an entry: normalized namespace string
followed by the entry's short name. -/
def rkey (prefx : String) (e : S3Object) : String :=
  prefx ++ extract_object_name_from_key e.key

/-- The lines of one object's body, each followed by a newline, concatenated. -/
def lineBlock (e : S3Object) : String :=
  strConcat ((splitLines e.content).map (fun l => l ++ "\n"))

/-- Modelled from the spec's words, for comparison with the code: the merged
output is, over the listed objects whose short name starts with the pattern
and ends with the target extension, the concatenation of each object's decoded
lines in order, each line followed by a newline, with the single final
trailing newline stripped. -/
def specMergedContent (entries : List S3Object) (pat ext : String) : String :=
  let all := strConcat ((entries.filter (fun e => matchesB pat ext e)).map lineBlock)
  if pyEndsWith all "\n" then strDropLastChar all else all

/-- The store calls the loop issues for one entry. -/
def stepTrace (b pat prefx ext : String) (e : S3Object) : List StoreCall :=
  if matchesB pat ext e then
    [StoreCall.getObject b (rkey prefx e), StoreCall.deleteObject b (rkey prefx e)]
  else if qualifiesB pat e then [StoreCall.deleteObject b (rkey prefx e)]
  else []

/-- The store calls the loop issues over a list of entries. -/
def traceOf (b pat prefx ext : String) : List S3Object → List StoreCall
  | [] => []
  | e :: rest => stepTrace b pat prefx ext e ++ traceOf b pat prefx ext rest

/-- The store state after the loop's deletions: for each qualifying entry in
order, the rebuilt key is deleted. -/
def keepAfterDeletes (pat prefx : String) : List S3Object → List S3Object → List S3Object
  | [], store => store
  | e :: rest, store =>
      if qualifiesB pat e then
        keepAfterDeletes pat prefx rest (deleteObject store (rkey prefx e))
      else keepAfterDeletes pat prefx rest store

/-- The keys of the upload calls in a trace, with the uploaded content. -/
def uploadCalls (t : List StoreCall) : List (String × String) :=
  t.filterMap (fun c =>
    match c with
    | StoreCall.upload _ k content => some (k, content)
    | _ => none)

/-- The keys of the delete calls in a trace, in order. -/
def deleteCalls (t : List StoreCall) : List String :=
  t.filterMap (fun c =>
    match c with
    | StoreCall.deleteObject _ k => some k
    | _ => none)

theorem getObject_delete_self (store : List S3Object) (k : String) :
    getObject (deleteObject store k) k = none := by
  induction store with
  | nil => rfl
  | cons o rest ih =>
      by_cases h : o.key = k
      · have : (o.key != k) = false := by simp [h]
        simp only [deleteObject, List.filter_cons, this]
        exact ih
      · have hb : (o.key != k) = true := by simp [h]
        simp only [deleteObject, List.filter_cons, hb]
        simp only [getObject, if_neg h]
        exact ih

theorem getObject_eq_some_mem (store : List S3Object) (k c : String)
    (h : getObject store k = some c) :
    ∃ o, o ∈ store ∧ o.key = k ∧ o.content = c := by
  induction store with
  | nil => exact absurd h (by simp [getObject])
  | cons o rest ih =>
      by_cases hk : o.key = k
      · simp only [getObject, if_pos hk] at h
        refine ⟨o, List.mem_cons_self o rest, hk, ?_⟩
        injection h
      · simp only [getObject, if_neg hk] at h
        rcases ih h with ⟨o2, h1, h2, h3⟩
        exact ⟨o2, List.mem_cons_of_mem o h1, h2, h3⟩

theorem getObject_filter_some (store : List S3Object) (q : S3Object → Bool) (k c : String)
    (h : getObject (store.filter q) k = some c) :
    ∃ c2, getObject store k = some c2 := by
  induction store with
  | nil => exact absurd h (by simp [getObject])
  | cons o rest ih =>
      by_cases hq : q o
      · rw [List.filter_cons_of_pos hq] at h
        by_cases hk : o.key = k
        · exact ⟨o.content, by simp [getObject, if_pos hk]⟩
        · simp only [getObject, if_neg hk] at h ⊢
          exact ih h
      · rw [List.filter_cons_of_neg (by simpa using hq)] at h
        by_cases hk : o.key = k
        · exact ⟨o.content, by simp [getObject, if_pos hk]⟩
        · simp only [getObject, if_neg hk]
          exact ih h

theorem mem_of_mem_deleteObject (store : List S3Object) (k : String) (o : S3Object)
    (h : o ∈ deleteObject store k) : o ∈ store ∧ o.key ≠ k := by
  have := List.mem_filter.mp h
  exact ⟨this.1, by simpa using this.2⟩

theorem mem_deleteObject_of_mem (store : List S3Object) (k : String) (o : S3Object)
    (h1 : o ∈ store) (h2 : o.key ≠ k) : o ∈ deleteObject store k :=
  List.mem_filter.mpr ⟨h1, by simpa using h2⟩

/-- Invariant of the merge loop: every stored object under the listed
namespace whose key is exactly the rebuilt key of its own short name and
whose short name qualifies is still among the unprocessed entries. -/
def prefixInv (pat prefx : String) (entries store : List S3Object) : Prop :=
  ∀ o ∈ store, pyStartsWith o.key prefx = true → o.key = rkey prefx o →
    qualifiesB pat o = true → o ∈ entries

theorem prefixInv_initial (pat prefx : String) (store : List S3Object) :
    prefixInv pat prefx (listObjects store prefx) store := by
  intro o ho hps _ _
  exact List.mem_filter.mpr ⟨ho, hps⟩

theorem prefixInv_preserved_delete (pat prefx : String) (e : S3Object)
    (rest store : List S3Object)
    (hinv : prefixInv pat prefx (e :: rest) store) :
    prefixInv pat prefx rest (deleteObject store (rkey prefx e)) := by
  intro o ho hps hflat hqual
  rcases mem_of_mem_deleteObject store (rkey prefx e) o ho with ⟨ho1, ho2⟩
  rcases List.mem_cons.mp (hinv o ho1 hps hflat hqual) with h1 | h2
  · exact absurd (h1 ▸ hflat) (h1 ▸ ho2)
  · exact h2

theorem prefixInv_preserved_same (pat prefx : String) (e : S3Object)
    (rest store : List S3Object)
    (hinv : prefixInv pat prefx (e :: rest) store)
    (hq : qualifiesB pat e = false) :
    prefixInv pat prefx rest store := by
  intro o ho hps hflat hqual
  rcases List.mem_cons.mp (hinv o ho hps hflat hqual) with h1 | h2
  · rw [h1] at hqual
    exact absurd hqual (by simp [hq])
  · exact h2

theorem merge_objects_loop_ok_gets (b pat prefx ext : String) (entries : List S3Object) :
    ∀ (store : List S3Object) (acc : String) (cnt : Nat) (acc2 : String) (cnt2 : Nat)
      (t : List StoreCall) (s : List S3Object),
    merge_objects_loop b pat prefx ext entries store acc cnt
      = (Except.ok (acc2, cnt2), t, s) →
    ∀ e ∈ entries, matchesB pat ext e = true →
      ∃ c, getObject store (rkey prefx e) = some c := by
  induction entries with
  | nil =>
      intro store acc cnt acc2 cnt2 t s _ e he
      exact absurd he (List.not_mem_nil e)
  | cons f rest ih =>
      intro store acc cnt acc2 cnt2 t s hrun e he hm
      simp only [merge_objects_loop] at hrun
      by_cases hq : pyStartsWith (extract_object_name_from_key f.key) pat = true
      · rw [if_pos hq] at hrun
        by_cases hx : pyEndsWith (extract_object_name_from_key f.key) ext = true
        · rw [if_pos hx] at hrun
          cases hget : getObject store (prefx ++ extract_object_name_from_key f.key) with
          | none =>
              simp only [hget] at hrun
              exact absurd hrun (by simp)
          | some c =>
              simp only [hget] at hrun
              rcases hr : merge_objects_loop b pat prefx ext rest
                  (deleteObject store (prefx ++ extract_object_name_from_key f.key))
                  (merge_objects_line_by_line c acc) (cnt + 1) with ⟨r1, t1, s1⟩
              rw [hr] at hrun
              simp only [Prod.mk.injEq] at hrun
              obtain ⟨hr1, _, _⟩ := hrun
              rcases List.mem_cons.mp he with hef | her
              · rw [hef]
                exact ⟨c, hget⟩
              · rw [hr1] at hr
                rcases ih _ _ _ _ _ _ _ hr e her hm with ⟨c2, hc2⟩
                exact getObject_filter_some store _ _ c2 hc2
        · rw [if_neg hx] at hrun
          rcases hr : merge_objects_loop b pat prefx ext rest
              (deleteObject store (prefx ++ extract_object_name_from_key f.key))
              acc (cnt + 1) with ⟨r1, t1, s1⟩
          rw [hr] at hrun
          simp only [Prod.mk.injEq] at hrun
          obtain ⟨hr1, _, _⟩ := hrun
          rcases List.mem_cons.mp he with hef | her
          · rw [hef] at hm
            unfold matchesB qualifiesB at hm
            rw [Bool.and_eq_true] at hm
            exact absurd hm.2 hx
          · rw [hr1] at hr
            rcases ih _ _ _ _ _ _ _ hr e her hm with ⟨c2, hc2⟩
            exact getObject_filter_some store _ _ c2 hc2
      · rw [if_neg hq] at hrun
        rcases List.mem_cons.mp he with hef | her
        · rw [hef] at hm
          unfold matchesB qualifiesB at hm
          rw [Bool.and_eq_true] at hm
          exact absurd hm.1 hq
        · exact ih _ _ _ _ _ _ _ hrun e her hm

/-- Main characterization of a successfully completing merge loop: the
accumulator collects, in listing order, the line blocks of exactly the
entries that qualify and match the extension (each downloaded body being the
entry's own, which the loop invariant forces); the count counts the
qualifying entries; the trace and final store are the per-entry calls and
deletions. -/
theorem merge_objects_loop_ok_char (b pat prefx ext : String)
    (hshape : prefx = "" ∨ pyEndsWith prefx "/" = true) (entries : List S3Object) :
    ∀ (store : List S3Object) (acc : String) (cnt : Nat) (acc2 : String) (cnt2 : Nat)
      (t : List StoreCall) (s : List S3Object),
    prefixInv pat prefx entries store →
    merge_objects_loop b pat prefx ext entries store acc cnt
      = (Except.ok (acc2, cnt2), t, s) →
    acc2 = acc ++ strConcat ((entries.filter (matchesB pat ext)).map lineBlock)
    ∧ cnt2 = cnt + entries.countP (qualifiesB pat)
    ∧ t = traceOf b pat prefx ext entries
    ∧ s = keepAfterDeletes pat prefx entries store := by
  induction entries with
  | nil =>
      intro store acc cnt acc2 cnt2 t s _ hrun
      simp only [merge_objects_loop, Prod.mk.injEq, Except.ok.injEq] at hrun
      obtain ⟨⟨ha, hc⟩, ht, hs⟩ := hrun
      refine ⟨?_, ?_, ?_, ?_⟩
      · rw [← ha]
        simp [strConcat, str_append_empty]
      · rw [← hc]
        simp
      · rw [← ht]
        rfl
      · rw [← hs]
        rfl
  | cons f rest ih =>
      intro store acc cnt acc2 cnt2 t s hinv hrun
      simp only [merge_objects_loop] at hrun
      by_cases hq : pyStartsWith (extract_object_name_from_key f.key) pat = true
      · rw [if_pos hq] at hrun
        have hqf : qualifiesB pat f = true := hq
        by_cases hx : pyEndsWith (extract_object_name_from_key f.key) ext = true
        · rw [if_pos hx] at hrun
          have hmf : matchesB pat ext f = true := by
            unfold matchesB
            rw [Bool.and_eq_true]
            exact ⟨hqf, hx⟩
          cases hget : getObject store (prefx ++ extract_object_name_from_key f.key) with
          | none =>
              simp only [hget] at hrun
              exact absurd hrun (by simp)
          | some c =>
              simp only [hget] at hrun
              rcases hr : merge_objects_loop b pat prefx ext rest
                  (deleteObject store (prefx ++ extract_object_name_from_key f.key))
                  (merge_objects_line_by_line c acc) (cnt + 1) with ⟨r1, t1, s1⟩
              rw [hr] at hrun
              simp only [Prod.mk.injEq] at hrun
              obtain ⟨hr1, ht, hs⟩ := hrun
              rw [hr1] at hr
              -- the downloaded body is f's own content
              have hc : c = f.content := by
                rcases getObject_eq_some_mem store _ c hget with ⟨o, homem, hokey, hocont⟩
                have hnoslash : '/' ∉ (extract_object_name_from_key f.key).data :=
                  slash_not_mem_extract_name f.key
                have honame : extract_object_name_from_key o.key
                    = extract_object_name_from_key f.key := by
                  rw [hokey]
                  exact extract_name_concat prefx _ hshape hnoslash
                have hops : pyStartsWith o.key prefx = true := by
                  rw [hokey]
                  exact pyStartsWith_append_left prefx _
                have hoflat : o.key = rkey prefx o := by
                  unfold rkey
                  rw [honame, hokey]
                have hoqual : qualifiesB pat o = true := by
                  unfold qualifiesB
                  rw [honame]
                  exact hq
                rcases List.mem_cons.mp (hinv o homem hops hoflat hoqual) with hof | hor
                · rw [← hocont, hof]
                · exfalso
                  have homatch : matchesB pat ext o = true := by
                    unfold matchesB qualifiesB
                    rw [honame, Bool.and_eq_true]
                    exact ⟨hq, hx⟩
                  rcases merge_objects_loop_ok_gets b pat prefx ext rest _ _ _ _ _ _ _
                      hr o hor homatch with ⟨c2, hc2⟩
                  have hrko : rkey prefx o = prefx ++ extract_object_name_from_key f.key := by
                    unfold rkey
                    rw [honame]
                  rw [hrko] at hc2
                  rw [getObject_delete_self store _] at hc2
                  exact Option.noConfusion hc2
              rcases ih _ _ _ _ _ _ _
                  (prefixInv_preserved_delete pat prefx f rest store hinv) hr
                  with ⟨ih1, ih2, ih3, ih4⟩
              refine ⟨?_, ?_, ?_, ?_⟩
              · rw [ih1, hc, merge_objects_line_by_line_eq]
                rw [List.filter_cons_of_pos hmf, List.map_cons, strConcat_cons,
                  String.append_assoc]
                rfl
              · rw [ih2, List.countP_cons_of_pos _ _ hqf]
                omega
              · rw [← ht, ih3]
                show _ = stepTrace b pat prefx ext f ++ traceOf b pat prefx ext rest
                rw [stepTrace, if_pos hmf]
                rfl
              · rw [← hs, ih4]
                show _ = keepAfterDeletes pat prefx (f :: rest) store
                rw [keepAfterDeletes, if_pos hqf]
        · rw [if_neg hx] at hrun
          have hmf : matchesB pat ext f = false := by
            unfold matchesB
            rw [Bool.and_eq_false_iff]
            right
            exact Bool.eq_false_iff.mpr hx
          rcases hr : merge_objects_loop b pat prefx ext rest
              (deleteObject store (prefx ++ extract_object_name_from_key f.key))
              acc (cnt + 1) with ⟨r1, t1, s1⟩
          rw [hr] at hrun
          simp only [Prod.mk.injEq] at hrun
          obtain ⟨hr1, ht, hs⟩ := hrun
          rw [hr1] at hr
          rcases ih _ _ _ _ _ _ _
              (prefixInv_preserved_delete pat prefx f rest store hinv) hr
              with ⟨ih1, ih2, ih3, ih4⟩
          refine ⟨?_, ?_, ?_, ?_⟩
          · rw [ih1, List.filter_cons_of_neg (by simp [hmf])]
          · rw [ih2, List.countP_cons_of_pos _ _ hqf]
            omega
          · rw [← ht, ih3]
            show _ = stepTrace b pat prefx ext f ++ traceOf b pat prefx ext rest
            rw [stepTrace, if_neg (by simp [hmf]), if_pos hqf]
            rfl
          · rw [← hs, ih4]
            show _ = keepAfterDeletes pat prefx (f :: rest) store
            rw [keepAfterDeletes, if_pos hqf]
      · rw [if_neg hq] at hrun
        have hqf : qualifiesB pat f = false := Bool.eq_false_iff.mpr hq
        have hmf : matchesB pat ext f = false := by
          unfold matchesB
          rw [Bool.and_eq_false_iff]
          left
          exact hqf
        rcases ih _ _ _ _ _ _ _
            (prefixInv_preserved_same pat prefx f rest store hinv hqf) hrun
            with ⟨ih1, ih2, ih3, ih4⟩
        refine ⟨?_, ?_, ?_, ?_⟩
        · rw [ih1, List.filter_cons_of_neg (by simp [hmf])]
        · rw [ih2, List.countP_cons_of_neg _ _ (by simp [hqf])]
        · rw [ih3]
          show _ = stepTrace b pat prefx ext f ++ traceOf b pat prefx ext rest
          rw [stepTrace, if_neg (by simp [hmf]), if_neg (by simp [hqf])]
          rfl
        · rw [ih4]
          show _ = keepAfterDeletes pat prefx (f :: rest) store
          rw [keepAfterDeletes, if_neg (by simp [hqf])]

theorem matchesB_qual (pat ext : String) (e : S3Object) (h : matchesB pat ext e = true) :
    qualifiesB pat e = true := by
  unfold matchesB at h
  rw [Bool.and_eq_true] at h
  exact h.1

theorem deleteCalls_append (t1 t2 : List StoreCall) :
    deleteCalls (t1 ++ t2) = deleteCalls t1 ++ deleteCalls t2 :=
  List.filterMap_append t1 t2 _

theorem uploadCalls_append (t1 t2 : List StoreCall) :
    uploadCalls (t1 ++ t2) = uploadCalls t1 ++ uploadCalls t2 :=
  List.filterMap_append t1 t2 _

theorem deleteCalls_traceOf (b pat prefx ext : String) (entries : List S3Object) :
    deleteCalls (traceOf b pat prefx ext entries)
      = (entries.filter (fun e => qualifiesB pat e)).map (rkey prefx) := by
  induction entries with
  | nil => rfl
  | cons e rest ih =>
      rw [traceOf, deleteCalls_append, ih]
      by_cases hm : matchesB pat ext e = true
      · rw [stepTrace, if_pos hm, List.filter_cons_of_pos (matchesB_qual pat ext e hm),
          List.map_cons]
        rfl
      · by_cases hq : qualifiesB pat e = true
        · rw [stepTrace, if_neg hm, if_pos hq, List.filter_cons_of_pos hq, List.map_cons]
          rfl
        · rw [stepTrace, if_neg hm, if_neg hq, List.filter_cons_of_neg (by simpa using hq)]
          rfl

theorem uploadCalls_traceOf (b pat prefx ext : String) (entries : List S3Object) :
    uploadCalls (traceOf b pat prefx ext entries) = [] := by
  induction entries with
  | nil => rfl
  | cons e rest ih =>
      rw [traceOf, uploadCalls_append, ih]
      by_cases hm : matchesB pat ext e = true
      · rw [stepTrace, if_pos hm]
        rfl
      · by_cases hq : qualifiesB pat e = true
        · rw [stepTrace, if_neg hm, if_pos hq]
          rfl
        · rw [stepTrace, if_neg hm, if_neg hq]
          rfl

theorem close_not_mem_traceOf (b pat prefx ext : String) (entries : List S3Object) :
    StoreCall.close ∉ traceOf b pat prefx ext entries := by
  induction entries with
  | nil => simp [traceOf]
  | cons e rest ih =>
      rw [traceOf]
      intro hmem
      rcases List.mem_append.mp hmem with h1 | h2
      · unfold stepTrace at h1
        by_cases hm : matchesB pat ext e = true
        · rw [if_pos hm] at h1
          simp at h1
        · rw [if_neg hm] at h1
          by_cases hq : qualifiesB pat e = true
          · rw [if_pos hq] at h1
            simp at h1
          · rw [if_neg hq] at h1
            simp at h1
      · exact ih h2

theorem traceOf_eq_nil (b pat prefx ext : String) (entries : List S3Object)
    (h : ∀ e ∈ entries, qualifiesB pat e = false) :
    traceOf b pat prefx ext entries = [] := by
  induction entries with
  | nil => rfl
  | cons e rest ih =>
      have hq : qualifiesB pat e = false := h e (List.mem_cons_self e rest)
      have hm : matchesB pat ext e = false := by
        unfold matchesB
        rw [Bool.and_eq_false_iff]
        left
        exact hq
      rw [traceOf, stepTrace, if_neg (by simp [hm]), if_neg (by simp [hq])]
      exact ih (fun x hx => h x (List.mem_cons_of_mem e hx))

theorem keepAfterDeletes_subset (pat prefx : String) (entries : List S3Object) :
    ∀ store : List S3Object, keepAfterDeletes pat prefx entries store ⊆ store := by
  induction entries with
  | nil => intro store; exact fun x hx => hx
  | cons e rest ih =>
      intro store
      rw [keepAfterDeletes]
      by_cases hq : qualifiesB pat e = true
      · rw [if_pos hq]
        intro x hx
        exact List.mem_of_mem_filter (ih _ hx)
      · rw [if_neg hq]
        exact ih store

theorem keepAfterDeletes_of_no_qualifies (pat prefx : String) (entries : List S3Object)
    (store : List S3Object) (h : ∀ e ∈ entries, qualifiesB pat e = false) :
    keepAfterDeletes pat prefx entries store = store := by
  induction entries with
  | nil => rfl
  | cons e rest ih =>
      rw [keepAfterDeletes, if_neg (by simp [h e (List.mem_cons_self e rest)])]
      exact ih (fun x hx => h x (List.mem_cons_of_mem e hx))

theorem mem_keepAfterDeletes_of_not_qual (pat prefx : String)
    (hshape : prefx = "" ∨ pyEndsWith prefx "/" = true) (entries : List S3Object) :
    ∀ (store : List S3Object) (o : S3Object), o ∈ store → qualifiesB pat o = false →
      o ∈ keepAfterDeletes pat prefx entries store := by
  induction entries with
  | nil => intro store o ho _; exact ho
  | cons e rest ih =>
      intro store o ho hq
      rw [keepAfterDeletes]
      by_cases hqe : qualifiesB pat e = true
      · rw [if_pos hqe]
        apply ih _ o _ hq
        apply mem_deleteObject_of_mem _ _ _ ho
        intro hkey
        have honame : extract_object_name_from_key o.key
            = extract_object_name_from_key e.key := by
          rw [hkey]
          show extract_object_name_from_key
            (prefx ++ extract_object_name_from_key e.key) = _
          exact extract_name_concat prefx _ hshape (slash_not_mem_extract_name e.key)
        have : qualifiesB pat o = true := by
          unfold qualifiesB
          rw [honame]
          exact hqe
        rw [this] at hq
        exact Bool.noConfusion hq
      · rw [if_neg hqe]
        exact ih _ o ho hq

theorem not_mem_keepAfterDeletes_flat (pat prefx : String) (entries : List S3Object) :
    ∀ (store : List S3Object) (e : S3Object), e ∈ entries → qualifiesB pat e = true →
      e.key = rkey prefx e → e ∉ keepAfterDeletes pat prefx entries store := by
  induction entries with
  | nil =>
      intro store e he
      exact absurd he (List.not_mem_nil e)
  | cons f rest ih =>
      intro store e he hq hflat
      rw [keepAfterDeletes]
      rcases List.mem_cons.mp he with hef | her
      · rw [hef] at hq hflat ⊢
        rw [if_pos hq]
        intro hmem
        have := keepAfterDeletes_subset pat prefx rest _ hmem
        rcases mem_of_mem_deleteObject _ _ _ this with ⟨_, hne⟩
        exact hne hflat
      · by_cases hqf : qualifiesB pat f = true
        · rw [if_pos hqf]
          exact ih _ e her hq hflat
        · rw [if_neg hqf]
          exact ih _ e her hq hflat

theorem merge_objects_loop_no_matches (b pat prefx ext : String) (entries : List S3Object) :
    ∀ (store : List S3Object) (acc : String) (cnt : Nat),
    (∀ e ∈ entries, matchesB pat ext e = false) →
    merge_objects_loop b pat prefx ext entries store acc cnt
      = (Except.ok (acc, cnt + entries.countP (qualifiesB pat)),
         traceOf b pat prefx ext entries,
         keepAfterDeletes pat prefx entries store) := by
  induction entries with
  | nil =>
      intro store acc cnt _
      simp [merge_objects_loop, traceOf, keepAfterDeletes]
  | cons f rest ih =>
      intro store acc cnt h
      have hmf : matchesB pat ext f = false := h f (List.mem_cons_self f rest)
      have hrest : ∀ e ∈ rest, matchesB pat ext e = false :=
        fun e he => h e (List.mem_cons_of_mem f he)
      simp only [merge_objects_loop]
      by_cases hq : pyStartsWith (extract_object_name_from_key f.key) pat = true
      · have hqf : qualifiesB pat f = true := hq
        have hx : pyEndsWith (extract_object_name_from_key f.key) ext = false := by
          unfold matchesB at hmf
          rw [Bool.and_eq_false_iff] at hmf
          rcases hmf with h1 | h2
          · rw [qualifiesB] at h1
            rw [h1] at hq
            exact Bool.noConfusion hq
          · exact h2
        rw [if_pos hq, if_neg (by simp [hx])]
        rw [ih _ acc (cnt + 1) hrest]
        dsimp only
        rw [List.countP_cons_of_pos _ _ hqf, traceOf, stepTrace,
          if_neg (by simp [hmf]), if_pos hqf, keepAfterDeletes, if_pos hqf]
        have hn : cnt + 1 + List.countP (qualifiesB pat) rest
            = cnt + (List.countP (qualifiesB pat) rest + 1) := by omega
        rw [hn]
        rfl
      · have hqf : qualifiesB pat f = false := Bool.eq_false_iff.mpr hq
        rw [if_neg hq, ih _ acc cnt hrest]
        rw [List.countP_cons_of_neg _ _ (by simp [hqf])]
        rw [traceOf, stepTrace, if_neg (by simp [hmf]), if_neg (by simp [hqf]),
          keepAfterDeletes, if_neg (by simp [hqf])]
        rfl

theorem close_not_mem_loop (b pat prefx ext : String) (entries : List S3Object) :
    ∀ (store : List S3Object) (acc : String) (cnt : Nat),
    StoreCall.close ∉ (merge_objects_loop b pat prefx ext entries store acc cnt).2.1 := by
  induction entries with
  | nil =>
      intro store acc cnt
      simp [merge_objects_loop]
  | cons f rest ih =>
      intro store acc cnt
      simp only [merge_objects_loop]
      by_cases hq : pyStartsWith (extract_object_name_from_key f.key) pat = true
      · rw [if_pos hq]
        by_cases hx : pyEndsWith (extract_object_name_from_key f.key) ext = true
        · rw [if_pos hx]
          cases hget : getObject store (prefx ++ extract_object_name_from_key f.key) with
          | none => simp
          | some c =>
              simp only []
              intro hmem
              rw [List.mem_cons, List.mem_cons] at hmem
              rcases hmem with h1 | h2 | h3
              · exact StoreCall.noConfusion h1
              · exact StoreCall.noConfusion h2
              · exact ih _ _ _ h3
        · rw [if_neg hx]
          simp only []
          intro hmem
          rw [List.mem_cons] at hmem
          rcases hmem with h1 | h2
          · exact StoreCall.noConfusion h1
          · exact ih _ _ _ h2
      · rw [if_neg hq]
        exact ih _ _ _

theorem strConcat_shape (ls : List String)
    (h : ∀ x ∈ ls, x = "" ∨ pyEndsWith x "\n" = true) :
    strConcat ls = "" ∨ pyEndsWith (strConcat ls) "\n" = true := by
  induction ls with
  | nil => left; rfl
  | cons x xs ih =>
      rw [strConcat_cons]
      rcases ih (fun y hy => h y (List.mem_cons_of_mem x hy)) with h0 | h1
      · rw [h0, str_append_empty]
        exact h x (List.mem_cons_self x xs)
      · right
        exact pyEndsWith_append_right x _ _ h1

theorem lineBlock_shape (e : S3Object) :
    lineBlock e = "" ∨ pyEndsWith (lineBlock e) "\n" = true := by
  unfold lineBlock
  apply strConcat_shape
  intro x hx
  rcases List.mem_map.mp hx with ⟨l, _, hl⟩
  right
  rw [← hl]
  exact pyEndsWith_append_self l "\n"

theorem specMergedContent_eq_dropLast (entries : List S3Object) (pat ext : String) :
    specMergedContent entries pat ext
      = strDropLastChar (strConcat ((entries.filter (matchesB pat ext)).map lineBlock)) := by
  simp only [specMergedContent]
  have hshape : strConcat ((entries.filter (matchesB pat ext)).map lineBlock) = ""
      ∨ pyEndsWith (strConcat ((entries.filter (matchesB pat ext)).map lineBlock)) "\n"
          = true := by
    apply strConcat_shape
    intro x hx
    rcases List.mem_map.mp hx with ⟨e, _, he⟩
    rw [← he]
    exact lineBlock_shape e
  rcases hshape with h0 | h1
  · rw [h0, pyEndsWith_empty_newline]
    rfl
  · rw [if_pos h1]

/-- Shape of a successful merge run, given the outcome of the internal loop:
the trace is the probe, the listing, the loop calls, the upload of the
accumulator without its last character, the two marker deletions when enabled,
and the close; the final store is the post-loop store with the upload applied
and, when enabled, the marker keys deleted. -/
theorem merge_ok_shape (w : World) (b k pat pre : String) (flag : Bool)
    (acc : String) (cnt : Nat) (tl : List StoreCall) (sl : List S3Object)
    (hb : b ≠ "")
    (hc : check_if_bucket_exists w.head = Except.ok ())
    (hk : k ≠ "")
    (hent : listObjects w.store (add_separator_to_prefix_if_absent pre) ≠ [])
    (hloop : merge_objects_loop b pat (add_separator_to_prefix_if_absent pre)
        (extract_object_extension_from_key k)
        (listObjects w.store (add_separator_to_prefix_if_absent pre)) w.store "" 0
        = (Except.ok (acc, cnt), tl, sl))
    (hcnt : cnt ≠ 0) :
    merge w b k pat pre flag = ⟨Except.ok (),
      StoreCall.headBucket b
        :: StoreCall.listObjectsV2 b (add_separator_to_prefix_if_absent pre)
        :: (tl ++ [StoreCall.upload b k (strDropLastChar acc)])
        ++ (if flag then
              [StoreCall.deleteObject b (add_separator_to_prefix_if_absent pre ++ "_SUCCESS"),
               StoreCall.deleteObject b
                 (add_separator_to_prefix_if_absent pre ++ "._SUCCESS.crc"),
               StoreCall.close]
            else [StoreCall.close]),
      if flag then
        deleteObject (deleteObject (putObject sl k (strDropLastChar acc))
          (add_separator_to_prefix_if_absent pre ++ "_SUCCESS"))
          (add_separator_to_prefix_if_absent pre ++ "._SUCCESS.crc")
      else putObject sl k (strDropLastChar acc)⟩ := by
  simp only [merge, if_neg hb, hc]
  rw [if_neg hk]
  simp only [merge_after_validation, if_neg hent, merge_objects, hloop]
  rw [if_neg hcnt]
  cases flag with
  | true => rfl
  | false => rfl

/-- A successful merge run passed every validation and its loop completed
with a nonzero count of qualifying entries. -/
theorem merge_ok_elim (w : World) (b k pat pre : String) (flag : Bool)
    (hok : (merge w b k pat pre flag).result = Except.ok ()) :
    b ≠ "" ∧ check_if_bucket_exists w.head = Except.ok () ∧ k ≠ ""
    ∧ listObjects w.store (add_separator_to_prefix_if_absent pre) ≠ []
    ∧ ∃ acc cnt tl sl,
        merge_objects_loop b pat (add_separator_to_prefix_if_absent pre)
          (extract_object_extension_from_key k)
          (listObjects w.store (add_separator_to_prefix_if_absent pre)) w.store "" 0
          = (Except.ok (acc, cnt), tl, sl) ∧ cnt ≠ 0 := by
  by_cases hb : b = ""
  · simp [merge, if_pos hb] at hok
  · simp only [merge, if_neg hb] at hok
    cases hc : check_if_bucket_exists w.head with
    | error e => simp [hc] at hok
    | ok u =>
        cases u
        simp only [hc] at hok
        by_cases hk : k = ""
        · rw [if_pos hk] at hok
          simp at hok
        · rw [if_neg hk] at hok
          by_cases hent : listObjects w.store (add_separator_to_prefix_if_absent pre) = []
          · simp [merge_after_validation, if_pos hent] at hok
          · simp only [merge_after_validation, if_neg hent, merge_objects] at hok
            rcases hloop : merge_objects_loop b pat (add_separator_to_prefix_if_absent pre)
                (extract_object_extension_from_key k)
                (listObjects w.store (add_separator_to_prefix_if_absent pre)) w.store "" 0
              with ⟨r1, t1, s1⟩
            rw [hloop] at hok
            cases r1 with
            | error e => simp at hok
            | ok p =>
                cases p with
                | mk acc cnt =>
                    dsimp only at hok
                    by_cases hcnt : cnt = 0
                    · rw [if_pos hcnt] at hok
                      simp at hok
                    · exact ⟨hb, rfl, hk, hent, acc, cnt, t1, s1, rfl, hcnt⟩

theorem uploadCalls_cons_head (b2 : String) (t : List StoreCall) :
    uploadCalls (StoreCall.headBucket b2 :: t) = uploadCalls t := rfl

theorem uploadCalls_cons_list (b2 p2 : String) (t : List StoreCall) :
    uploadCalls (StoreCall.listObjectsV2 b2 p2 :: t) = uploadCalls t := rfl

theorem uploadCalls_cons_del (b2 k2 : String) (t : List StoreCall) :
    uploadCalls (StoreCall.deleteObject b2 k2 :: t) = uploadCalls t := rfl

theorem uploadCalls_cons_close (t : List StoreCall) :
    uploadCalls (StoreCall.close :: t) = uploadCalls t := rfl

theorem uploadCalls_cons_upload (b2 k2 c2 : String) (t : List StoreCall) :
    uploadCalls (StoreCall.upload b2 k2 c2 :: t) = (k2, c2) :: uploadCalls t := rfl

theorem uploadCalls_nil : uploadCalls [] = [] := rfl

theorem deleteCalls_cons_head (b2 : String) (t : List StoreCall) :
    deleteCalls (StoreCall.headBucket b2 :: t) = deleteCalls t := rfl

theorem deleteCalls_cons_list (b2 p2 : String) (t : List StoreCall) :
    deleteCalls (StoreCall.listObjectsV2 b2 p2 :: t) = deleteCalls t := rfl

theorem deleteCalls_cons_get (b2 k2 : String) (t : List StoreCall) :
    deleteCalls (StoreCall.getObject b2 k2 :: t) = deleteCalls t := rfl

theorem deleteCalls_cons_close (t : List StoreCall) :
    deleteCalls (StoreCall.close :: t) = deleteCalls t := rfl

theorem deleteCalls_cons_upload (b2 k2 c2 : String) (t : List StoreCall) :
    deleteCalls (StoreCall.upload b2 k2 c2 :: t) = deleteCalls t := rfl

theorem deleteCalls_cons_del (b2 k2 : String) (t : List StoreCall) :
    deleteCalls (StoreCall.deleteObject b2 k2 :: t) = k2 :: deleteCalls t := rfl

theorem deleteCalls_nil : deleteCalls [] = [] := rfl

/-- C9: prefix normalization appends the separator to a non-empty string not
already ending with `/`, leaves a string ending with `/` unchanged, leaves the
empty string empty, and is idempotent. -/
theorem C9_normalization_idempotent (p : String) :
    (p ≠ "" → pyEndsWith p "/" = false → add_separator_to_prefix_if_absent p = p ++ "/")
    ∧ (pyEndsWith p "/" = true → add_separator_to_prefix_if_absent p = p)
    ∧ add_separator_to_prefix_if_absent "" = ""
    ∧ add_separator_to_prefix_if_absent (add_separator_to_prefix_if_absent p)
        = add_separator_to_prefix_if_absent p := by
  have hsep : ∀ q : String, pyEndsWith q "/" = true
      → add_separator_to_prefix_if_absent q = q := by
    intro q h
    unfold add_separator_to_prefix_if_absent
    rw [if_neg]
    intro hcon
    rw [h] at hcon
    exact Bool.noConfusion hcon.2
  have hempty : add_separator_to_prefix_if_absent "" = "" := by
    unfold add_separator_to_prefix_if_absent
    rw [if_neg]
    intro hcon
    exact hcon.1 rfl
  refine ⟨?_, hsep p, hempty, ?_⟩
  · intro h1 h2
    unfold add_separator_to_prefix_if_absent
    rw [if_pos ⟨h1, h2⟩]
  · rcases add_separator_shape p with h0 | h1
    · rw [h0, hempty]
    · rw [hsep _ h1]

/-- C6: with non-empty bucket and key, an existing bucket, and an empty
listing under the normalized source string, merge raises the prefix-not-found
error after exactly the probe and the listing call, leaving the store
unchanged. -/
theorem C6_prefix_not_found (w : World) (b k pat pre : String) (flag : Bool)
    (hb : b ≠ "") (hk : k ≠ "") (hhead : w.head = HeadBucketResult.ok)
    (hent : listObjects w.store (add_separator_to_prefix_if_absent pre) = []) :
    merge w b k pat pre flag
      = ⟨Except.error (MergeError.objectNotFound "Prefix not found!"),
         [StoreCall.headBucket b,
          StoreCall.listObjectsV2 b (add_separator_to_prefix_if_absent pre)],
         w.store⟩ := by
  simp only [merge, if_neg hb, hhead, check_if_bucket_exists]
  rw [if_neg hk]
  simp only [merge_after_validation, if_pos hent]

/-- C5: with validations passing and a non-empty listing in which no entry's
short name starts with the pattern, merge raises the no-objects error naming
the pattern, after only the probe and listing calls, leaving the store
unchanged (nothing deleted, nothing uploaded). -/
theorem C5_no_objects_to_merge (w : World) (b k pat pre : String) (flag : Bool)
    (hb : b ≠ "") (hc : check_if_bucket_exists w.head = Except.ok ()) (hk : k ≠ "")
    (hent : listObjects w.store (add_separator_to_prefix_if_absent pre) ≠ [])
    (hnoq : ∀ e ∈ listObjects w.store (add_separator_to_prefix_if_absent pre),
      qualifiesB pat e = false) :
    merge w b k pat pre flag
      = ⟨Except.error (MergeError.objectNotFound
            ("Objects to merge not found with the initial name \"" ++ pat ++ "\"!")),
         [StoreCall.headBucket b,
          StoreCall.listObjectsV2 b (add_separator_to_prefix_if_absent pre)],
         w.store⟩ := by
  have hnom : ∀ e ∈ listObjects w.store (add_separator_to_prefix_if_absent pre),
      matchesB pat (extract_object_extension_from_key k) e = false := by
    intro e he
    unfold matchesB
    rw [Bool.and_eq_false_iff]
    left
    exact hnoq e he
  have hloop := merge_objects_loop_no_matches b pat (add_separator_to_prefix_if_absent pre)
    (extract_object_extension_from_key k)
    (listObjects w.store (add_separator_to_prefix_if_absent pre)) w.store "" 0 hnom
  rw [List.countP_eq_zero.mpr (by intro e he; simp [hnoq e he]),
    traceOf_eq_nil _ _ _ _ _ hnoq,
    keepAfterDeletes_of_no_qualifies _ _ _ _ hnoq] at hloop
  simp only [merge, if_neg hb, hc]
  rw [if_neg hk]
  simp only [merge_after_validation, if_neg hent, merge_objects, hloop]
  rfl

/-- C4 (amended): an empty bucket name raises the invalid-argument error with
no store calls and no mutation; with a non-empty bucket whose probe does not
report 404, an empty target key raises the invalid-argument error after
exactly the probe call, with no mutation. -/
theorem C4_amended_validation (w : World) (k pat pre : String) (flag : Bool) :
    (∀ b : String, b = "" → merge w b k pat pre flag
        = ⟨Except.error (MergeError.invalidArgument "Bucket not informed!"), [], w.store⟩)
    ∧ (∀ b : String, b ≠ "" → check_if_bucket_exists w.head = Except.ok () → k = "" →
        merge w b k pat pre flag
          = ⟨Except.error (MergeError.invalidArgument "Object key not informed!"),
             [StoreCall.headBucket b], w.store⟩) := by
  constructor
  · intro b hb
    simp only [merge, if_pos hb]
  · intro b hb hc hk
    simp only [merge, if_neg hb, hc]
    rw [if_pos hk]

/-- C3 (amended): the probe's 404 ClientError is translated to BucketNotFound;
any other ClientError code at the probe is swallowed (the check succeeds and
merge proceeds); an error raised by the merge phase after the validations
propagates unmodified as the result of merge. -/
theorem C3_amended_propagation :
    (∀ code : String, code ≠ "404" →
       check_if_bucket_exists (HeadBucketResult.clientError code) = Except.ok ())
    ∧ check_if_bucket_exists (HeadBucketResult.clientError "404")
        = Except.error MergeError.bucketNotFound
    ∧ (∀ (w : World) (b k pat pre : String) (flag : Bool) (e : MergeError)
         (t : List StoreCall) (s : List S3Object),
         b ≠ "" → check_if_bucket_exists w.head = Except.ok () → k ≠ "" →
         listObjects w.store (add_separator_to_prefix_if_absent pre) ≠ [] →
         merge_objects b pat (add_separator_to_prefix_if_absent pre)
           (extract_object_extension_from_key k)
           (listObjects w.store (add_separator_to_prefix_if_absent pre)) w.store
           = (Except.error e, t, s) →
         (merge w b k pat pre flag).result = Except.error e) := by
  refine ⟨?_, ?_, ?_⟩
  · intro code hcode
    simp only [check_if_bucket_exists]
    rw [if_neg hcode]
  · rfl
  · intro w b k pat pre flag e t s hb hc hk hent hmo
    simp only [merge, if_neg hb, hc]
    rw [if_neg hk]
    simp only [merge_after_validation, if_neg hent, hmo]

/-- C7 (amended): the client is closed, as the last action, on the successful
path only; on every error exit of merge no close call is issued. -/
theorem C7_amended_close (w : World) (b k pat pre : String) (flag : Bool) :
    ((merge w b k pat pre flag).result = Except.ok () →
       ∃ t0, (merge w b k pat pre flag).trace = t0 ++ [StoreCall.close])
    ∧ (∀ err : MergeError, (merge w b k pat pre flag).result = Except.error err →
       StoreCall.close ∉ (merge w b k pat pre flag).trace) := by
  constructor
  · intro hok
    rcases merge_ok_elim w b k pat pre flag hok with
      ⟨hb, hc, hk, hent, acc, cnt, tl, sl, hloop, hcnt⟩
    rw [merge_ok_shape w b k pat pre flag acc cnt tl sl hb hc hk hent hloop hcnt]
    cases flag with
    | true =>
        refine ⟨StoreCall.headBucket b
          :: StoreCall.listObjectsV2 b (add_separator_to_prefix_if_absent pre)
          :: (tl ++ [StoreCall.upload b k (strDropLastChar acc)])
          ++ [StoreCall.deleteObject b (add_separator_to_prefix_if_absent pre ++ "_SUCCESS"),
              StoreCall.deleteObject b
                (add_separator_to_prefix_if_absent pre ++ "._SUCCESS.crc")], ?_⟩
        simp [List.append_assoc]
    | false =>
        refine ⟨StoreCall.headBucket b
          :: StoreCall.listObjectsV2 b (add_separator_to_prefix_if_absent pre)
          :: (tl ++ [StoreCall.upload b k (strDropLastChar acc)]), ?_⟩
        simp
  · intro err herr
    by_cases hb : b = ""
    · simp only [merge, if_pos hb]
      simp
    · cases hc : check_if_bucket_exists w.head with
      | error e2 =>
          simp only [merge, if_neg hb, hc]
          simp
      | ok u =>
          cases u
          by_cases hk : k = ""
          · simp only [merge, if_neg hb, hc, if_pos hk]
            simp
          · by_cases hent : listObjects w.store (add_separator_to_prefix_if_absent pre) = []
            · simp only [merge, if_neg hb, hc, if_neg hk, merge_after_validation,
                if_pos hent]
              simp
            · rcases hloop : merge_objects_loop b pat (add_separator_to_prefix_if_absent pre)
                  (extract_object_extension_from_key k)
                  (listObjects w.store (add_separator_to_prefix_if_absent pre)) w.store "" 0
                with ⟨r1, t1, s1⟩
              have hcl := close_not_mem_loop b pat (add_separator_to_prefix_if_absent pre)
                (extract_object_extension_from_key k)
                (listObjects w.store (add_separator_to_prefix_if_absent pre)) w.store "" 0
              rw [hloop] at hcl
              cases r1 with
              | error e2 =>
                  simp only [merge, if_neg hb, hc, if_neg hk, merge_after_validation,
                    if_neg hent, merge_objects, hloop]
                  intro hmem
                  rcases List.mem_cons.mp hmem with h1 | hmem2
                  · exact StoreCall.noConfusion h1
                  · rcases List.mem_cons.mp hmem2 with h2 | h3
                    · exact StoreCall.noConfusion h2
                    · exact hcl h3
              | ok p =>
                  cases p with
                  | mk acc cnt =>
                      by_cases hcnt : cnt = 0
                      · simp only [merge, if_neg hb, hc, if_neg hk, merge_after_validation,
                          if_neg hent, merge_objects, hloop, if_pos hcnt]
                        intro hmem
                        rcases List.mem_cons.mp hmem with h1 | hmem2
                        · exact StoreCall.noConfusion h1
                        · rcases List.mem_cons.mp hmem2 with h2 | h3
                          · exact StoreCall.noConfusion h2
                          · exact hcl h3
                      · exfalso
                        rw [merge_ok_shape w b k pat pre flag acc cnt t1 s1 hb hc hk hent
                          hloop hcnt] at herr
                        exact Except.noConfusion herr

/-- C1: in every merge run that succeeds, the single uploaded object is at the
target key and its content is the concatenation, over the listed entries whose
short name starts with the pattern and ends with the target key's extension,
of each entry's decoded lines each followed by a newline, with the final
trailing newline stripped. -/
theorem C1_merged_output (w : World) (b k pat pre : String) (flag : Bool)
    (hok : (merge w b k pat pre flag).result = Except.ok ()) :
    uploadCalls (merge w b k pat pre flag).trace
      = [(k, specMergedContent
            (listObjects w.store (add_separator_to_prefix_if_absent pre)) pat
            (extract_object_extension_from_key k))] := by
  rcases merge_ok_elim w b k pat pre flag hok with
    ⟨hb, hc, hk, hent, acc, cnt, tl, sl, hloop, hcnt⟩
  rcases merge_objects_loop_ok_char b pat (add_separator_to_prefix_if_absent pre)
      (extract_object_extension_from_key k) (add_separator_shape pre)
      (listObjects w.store (add_separator_to_prefix_if_absent pre)) w.store "" 0
      acc cnt tl sl
      (prefixInv_initial pat (add_separator_to_prefix_if_absent pre) w.store) hloop
    with ⟨h1, _, h3, _⟩
  rw [merge_ok_shape w b k pat pre flag acc cnt tl sl hb hc hk hent hloop hcnt]
  show uploadCalls (StoreCall.headBucket b
      :: StoreCall.listObjectsV2 b (add_separator_to_prefix_if_absent pre)
      :: (tl ++ [StoreCall.upload b k (strDropLastChar acc)]) ++ _) = _
  rw [h3]
  have hflagpart : uploadCalls (if flag = true then
      [StoreCall.deleteObject b (add_separator_to_prefix_if_absent pre ++ "_SUCCESS"),
       StoreCall.deleteObject b (add_separator_to_prefix_if_absent pre ++ "._SUCCESS.crc"),
       StoreCall.close]
    else [StoreCall.close]) = [] := by
    cases flag with
    | true => rfl
    | false => rfl
  simp only [uploadCalls_append, uploadCalls_cons_head, uploadCalls_cons_list,
    uploadCalls_cons_upload, uploadCalls_nil, uploadCalls_traceOf, hflagpart,
    List.append_nil, List.nil_append]
  rw [h1, str_empty_append, ← specMergedContent_eq_dropLast]

/-- C2 (amended): in a merge loop that completes successfully over the listed
entries, a deletion call is issued, in listing order, at the rebuilt key
(normalized source string followed by the short name) of exactly the entries
whose short name starts with the pattern; every stored object whose short name
does not start with the pattern survives; and every qualifying listed entry
whose own key equals its rebuilt key is deleted from the store. -/
theorem C2_amended_deletions (b pat prefx ext : String) (store : List S3Object)
    (hshape : prefx = "" ∨ pyEndsWith prefx "/" = true)
    (content : String) (t : List StoreCall) (s : List S3Object)
    (hrun : merge_objects b pat prefx ext (listObjects store prefx) store
      = (Except.ok content, t, s)) :
    deleteCalls t
      = ((listObjects store prefx).filter (fun e => qualifiesB pat e)).map (rkey prefx)
    ∧ (∀ o ∈ store, qualifiesB pat o = false → o ∈ s)
    ∧ (∀ e ∈ listObjects store prefx, qualifiesB pat e = true →
        e.key = rkey prefx e → e ∉ s) := by
  rcases hloop : merge_objects_loop b pat prefx ext (listObjects store prefx) store "" 0
    with ⟨r1, t1, s1⟩
  simp only [merge_objects, hloop] at hrun
  cases r1 with
  | error e => simp at hrun
  | ok p =>
      cases p with
      | mk acc cnt =>
          dsimp only at hrun
          by_cases hcnt : cnt = 0
          · rw [if_pos hcnt] at hrun
            simp at hrun
          · rw [if_neg hcnt] at hrun
            simp only [Prod.mk.injEq, Except.ok.injEq] at hrun
            obtain ⟨-, ht, hs⟩ := hrun
            rcases merge_objects_loop_ok_char b pat prefx ext hshape
                (listObjects store prefx) store "" 0 acc cnt t1 s1
                (prefixInv_initial pat prefx store) hloop with ⟨-, -, h3, h4⟩
            refine ⟨?_, ?_, ?_⟩
            · rw [← ht, h3, deleteCalls_traceOf]
            · intro o ho hq
              rw [← hs, h4]
              exact mem_keepAfterDeletes_of_not_qual pat prefx hshape
                (listObjects store prefx) store o ho hq
            · intro e he hq hflat
              rw [← hs, h4]
              exact not_mem_keepAfterDeletes_flat pat prefx
                (listObjects store prefx) store e he hq hflat

/-- C8: for a run whose merge phase succeeds, with marker deletion enabled the
trace, after the upload, holds exactly the deletions of the two marker keys
under the normalized source string followed by the close; with it disabled the
same trace ends with the close alone and neither marker deletion occurs. -/
theorem C8_marker_deletions (w : World) (b k pat pre : String)
    (hok : (merge w b k pat pre false).result = Except.ok ()) :
    ∃ t c,
      (merge w b k pat pre true).trace
        = t ++ [StoreCall.upload b k c]
          ++ [StoreCall.deleteObject b (add_separator_to_prefix_if_absent pre ++ "_SUCCESS"),
              StoreCall.deleteObject b
                (add_separator_to_prefix_if_absent pre ++ "._SUCCESS.crc"),
              StoreCall.close]
      ∧ (merge w b k pat pre false).trace
          = t ++ [StoreCall.upload b k c] ++ [StoreCall.close] := by
  rcases merge_ok_elim w b k pat pre false hok with
    ⟨hb, hc, hk, hent, acc, cnt, tl, sl, hloop, hcnt⟩
  refine ⟨StoreCall.headBucket b
      :: StoreCall.listObjectsV2 b (add_separator_to_prefix_if_absent pre) :: tl,
    strDropLastChar acc, ?_, ?_⟩
  · rw [merge_ok_shape w b k pat pre true acc cnt tl sl hb hc hk hent hloop hcnt]
    simp [List.append_assoc]
  · rw [merge_ok_shape w b k pat pre false acc cnt tl sl hb hc hk hent hloop hcnt]
    simp [List.append_assoc]

/-- C10 (amended): when at least one listed entry qualifies but none also
matches the target key's extension, merge succeeds, uploads a zero-byte object
at the target key, and the deletions issued during the loop are exactly, in
listing order, the rebuilt keys of the qualifying entries. -/
theorem C10_empty_upload (w : World) (b k pat pre : String) (flag : Bool)
    (hb : b ≠ "") (hc : check_if_bucket_exists w.head = Except.ok ()) (hk : k ≠ "")
    (hsome : ∃ e ∈ listObjects w.store (add_separator_to_prefix_if_absent pre),
        qualifiesB pat e = true)
    (hnom : ∀ e ∈ listObjects w.store (add_separator_to_prefix_if_absent pre),
        matchesB pat (extract_object_extension_from_key k) e = false) :
    (merge w b k pat pre flag).result = Except.ok ()
    ∧ uploadCalls (merge w b k pat pre flag).trace = [(k, "")]
    ∧ deleteCalls (merge w b k pat pre false).trace
        = ((listObjects w.store (add_separator_to_prefix_if_absent pre)).filter
            (fun e => qualifiesB pat e)).map
            (rkey (add_separator_to_prefix_if_absent pre)) := by
  have hent : listObjects w.store (add_separator_to_prefix_if_absent pre) ≠ [] := by
    rcases hsome with ⟨e, he, _⟩
    intro h0
    rw [h0] at he
    exact List.not_mem_nil e he
  have hloop := merge_objects_loop_no_matches b pat (add_separator_to_prefix_if_absent pre)
    (extract_object_extension_from_key k)
    (listObjects w.store (add_separator_to_prefix_if_absent pre)) w.store "" 0 hnom
  have hcnt : 0 + (listObjects w.store (add_separator_to_prefix_if_absent pre)).countP
      (qualifiesB pat) ≠ 0 := by
    rcases hsome with ⟨e, he, hq⟩
    have hpos : 0 < (listObjects w.store (add_separator_to_prefix_if_absent pre)).countP
        (qualifiesB pat) := List.countP_pos_iff.mpr ⟨e, he, hq⟩
    omega
  have hshape1 := merge_ok_shape w b k pat pre flag ""
    (0 + (listObjects w.store (add_separator_to_prefix_if_absent pre)).countP
      (qualifiesB pat)) _ _ hb hc hk hent hloop hcnt
  have hshape2 := merge_ok_shape w b k pat pre false ""
    (0 + (listObjects w.store (add_separator_to_prefix_if_absent pre)).countP
      (qualifiesB pat)) _ _ hb hc hk hent hloop hcnt
  refine ⟨?_, ?_, ?_⟩
  · rw [hshape1]
  · rw [hshape1]
    show uploadCalls (StoreCall.headBucket b
        :: StoreCall.listObjectsV2 b (add_separator_to_prefix_if_absent pre)
        :: (traceOf b pat (add_separator_to_prefix_if_absent pre)
              (extract_object_extension_from_key k)
              (listObjects w.store (add_separator_to_prefix_if_absent pre))
            ++ [StoreCall.upload b k (strDropLastChar "")]) ++ _) = _
    have hflagpart : uploadCalls (if flag = true then
        [StoreCall.deleteObject b (add_separator_to_prefix_if_absent pre ++ "_SUCCESS"),
         StoreCall.deleteObject b (add_separator_to_prefix_if_absent pre ++ "._SUCCESS.crc"),
         StoreCall.close]
      else [StoreCall.close]) = [] := by
      cases flag with
      | true => rfl
      | false => rfl
    simp only [uploadCalls_append, uploadCalls_cons_head, uploadCalls_cons_list,
      uploadCalls_cons_upload, uploadCalls_nil, uploadCalls_traceOf, hflagpart,
      List.append_nil, List.nil_append]
    rfl
  · rw [hshape2]
    show deleteCalls (StoreCall.headBucket b
        :: StoreCall.listObjectsV2 b (add_separator_to_prefix_if_absent pre)
        :: (traceOf b pat (add_separator_to_prefix_if_absent pre)
              (extract_object_extension_from_key k)
              (listObjects w.store (add_separator_to_prefix_if_absent pre))
            ++ [StoreCall.upload b k (strDropLastChar "")]) ++ [StoreCall.close]) = _
    simp only [deleteCalls_append, deleteCalls_cons_head, deleteCalls_cons_list,
      deleteCalls_cons_upload, deleteCalls_cons_close, deleteCalls_nil,
      deleteCalls_traceOf, List.append_nil, List.nil_append]

/-- C1 witness: the round trip — a sole matching input with lines a, b, c
yields the merged output a, b, c with no extra trailing newline. -/
theorem C1_witness :
    uploadCalls (merge ⟨HeadBucketResult.ok, [⟨"job1.txt", "a\nb\nc"⟩]⟩
      "bkt" "out.txt" "job" "" true).trace = [("out.txt", "a\nb\nc")] := by
  have h := C1_merged_output ⟨HeadBucketResult.ok, [⟨"job1.txt", "a\nb\nc"⟩]⟩
    "bkt" "out.txt" "job" "" true (by decide)
  rw [h]
  decide

/-- C2 counterexample: a successful merge run in which a qualifying listed
object (nested below the source string) is NOT deleted from the store,
refuting the claim that every qualifying object is deleted. -/
theorem C2_counterexample :
    (merge ⟨HeadBucketResult.ok, [⟨"p/a/job1.json", "x"⟩, ⟨"p/job2.txt", "y"⟩]⟩
        "bkt" "p/out.txt" "job" "p" false).result = Except.ok ()
    ∧ (⟨"p/a/job1.json", "x"⟩ : S3Object)
        ∈ listObjects [⟨"p/a/job1.json", "x"⟩, ⟨"p/job2.txt", "y"⟩] "p/"
    ∧ qualifiesB "job" ⟨"p/a/job1.json", "x"⟩ = true
    ∧ (⟨"p/a/job1.json", "x"⟩ : S3Object)
        ∈ (merge ⟨HeadBucketResult.ok, [⟨"p/a/job1.json", "x"⟩, ⟨"p/job2.txt", "y"⟩]⟩
            "bkt" "p/out.txt" "job" "p" false).store := by
  decide

/-- C2 witness: on a flat store the amended statement instantiates — the
non-qualifying object survives the loop. -/
theorem C2_witness :
    (⟨"other.txt", "b"⟩ : S3Object) ∈ [(⟨"other.txt", "b"⟩ : S3Object)] :=
  (C2_amended_deletions "bkt" "job" "" "txt"
    [⟨"job1.txt", "a"⟩, ⟨"other.txt", "b"⟩] (Or.inl rfl) "a\n"
    [StoreCall.getObject "bkt" "job1.txt", StoreCall.deleteObject "bkt" "job1.txt"]
    [⟨"other.txt", "b"⟩] (by decide)).2.1
    ⟨"other.txt", "b"⟩ (by decide) (by decide)

/-- C3 counterexample: a run in which the bucket probe reports a ClientError
with code 403 (a store error other than the 404 probe result), yet merge
completes successfully — the error is not propagated to the caller. -/
theorem C3_counterexample :
    StoreCall.headBucket "bb"
      ∈ (merge ⟨HeadBucketResult.clientError "403", [⟨"j1.txt", "z"⟩]⟩
          "bb" "o.txt" "j" "" false).trace
    ∧ (merge ⟨HeadBucketResult.clientError "403", [⟨"j1.txt", "z"⟩]⟩
        "bb" "o.txt" "j" "" false).result = Except.ok () := by
  decide

/-- C3 witness: a 403 ClientError at the probe is swallowed. -/
theorem C3_witness :
    check_if_bucket_exists (HeadBucketResult.clientError "403") = Except.ok () :=
  C3_amended_propagation.1 "403" (by decide)

/-- C4 counterexample: with a non-empty bucket and empty target key, the
invalid-argument error is raised only after a store call (the bucket probe)
has been made, refuting "no store calls made". -/
theorem C4_counterexample :
    (merge ⟨HeadBucketResult.ok, [⟨"a.txt", "1"⟩]⟩ "bkt" "" "pat" "" true).result
      = Except.error (MergeError.invalidArgument "Object key not informed!")
    ∧ (merge ⟨HeadBucketResult.ok, [⟨"a.txt", "1"⟩]⟩ "bkt" "" "pat" "" true).trace
      = [StoreCall.headBucket "bkt"] := by
  decide

/-- C4 witness: the amended statement at a concrete input — empty key, probe
passing, one probe call in the trace, store unchanged. -/
theorem C4_witness :
    merge ⟨HeadBucketResult.ok, []⟩ "bb" "" "x" "" false
      = ⟨Except.error (MergeError.invalidArgument "Object key not informed!"),
         [StoreCall.headBucket "bb"], []⟩ :=
  (C4_amended_validation ⟨HeadBucketResult.ok, []⟩ "" "x" "" false).2
    "bb" (by decide) (by decide) rfl

/-- C5 witness: a non-empty listing with no entry matching the pattern — the
no-objects error naming the pattern, store unchanged, no deletions. -/
theorem C5_witness :
    merge ⟨HeadBucketResult.ok, [⟨"zed.txt", "z"⟩]⟩ "bkt" "out.txt" "job" "" true
      = ⟨Except.error (MergeError.objectNotFound
            "Objects to merge not found with the initial name \"job\"!"),
         [StoreCall.headBucket "bkt", StoreCall.listObjectsV2 "bkt" ""],
         [⟨"zed.txt", "z"⟩]⟩ := by
  have h := C5_no_objects_to_merge ⟨HeadBucketResult.ok, [⟨"zed.txt", "z"⟩]⟩
    "bkt" "out.txt" "job" "" true (by decide) (by decide) (by decide)
    (by decide) (by decide)
  rw [h]
  decide

/-- C6 witness: an empty listing under the normalized source string — the
prefix-not-found error after the probe and the listing call only. -/
theorem C6_witness :
    merge ⟨HeadBucketResult.ok, [⟨"x.txt", "1"⟩]⟩ "bkt" "out.txt" "job" "data" false
      = ⟨Except.error (MergeError.objectNotFound "Prefix not found!"),
         [StoreCall.headBucket "bkt", StoreCall.listObjectsV2 "bkt" "data/"],
         [⟨"x.txt", "1"⟩]⟩ := by
  have h := C6_prefix_not_found ⟨HeadBucketResult.ok, [⟨"x.txt", "1"⟩]⟩
    "bkt" "out.txt" "job" "data" false (by decide) (by decide) rfl (by decide)
  rw [h]
  decide

/-- C7 counterexample: an error exit of merge (nonexistent bucket) in whose
trace no close call appears — the client is not released on this exit path. -/
theorem C7_counterexample :
    (merge ⟨HeadBucketResult.clientError "404", []⟩ "bkt" "k.txt" "p" "" true).result
      = Except.error MergeError.bucketNotFound
    ∧ StoreCall.close
        ∉ (merge ⟨HeadBucketResult.clientError "404", []⟩ "bkt" "k.txt" "p" "" true).trace := by
  decide

/-- C7 witness: the amended statement at a concrete failing input — no close
call on the empty-bucket-name error path. -/
theorem C7_witness :
    StoreCall.close ∉ (merge ⟨HeadBucketResult.ok, []⟩ "" "kk" "pp" "" true).trace :=
  (C7_amended_close ⟨HeadBucketResult.ok, []⟩ "" "kk" "pp" "" true).2
    (MergeError.invalidArgument "Bucket not informed!") (by decide)

/-- C8 witness: a concrete successful run — with the flag the two marker
deletions follow the upload; without it neither occurs. -/
theorem C8_witness :
    ∃ t c,
      (merge ⟨HeadBucketResult.ok, [⟨"job7.txt", "hi"⟩]⟩ "bkt" "out.txt" "job" "" true).trace
        = t ++ [StoreCall.upload "bkt" "out.txt" c]
          ++ [StoreCall.deleteObject "bkt" (add_separator_to_prefix_if_absent "" ++ "_SUCCESS"),
              StoreCall.deleteObject "bkt"
                (add_separator_to_prefix_if_absent "" ++ "._SUCCESS.crc"),
              StoreCall.close]
      ∧ (merge ⟨HeadBucketResult.ok, [⟨"job7.txt", "hi"⟩]⟩ "bkt" "out.txt" "job" "" false).trace
          = t ++ [StoreCall.upload "bkt" "out.txt" c] ++ [StoreCall.close] :=
  C8_marker_deletions ⟨HeadBucketResult.ok, [⟨"job7.txt", "hi"⟩]⟩
    "bkt" "out.txt" "job" "" (by decide)

/-- C9 witness: normalizing a concrete string without the separator appends it. -/
theorem C9_witness :
    add_separator_to_prefix_if_absent "data" = "data" ++ "/" :=
  (C9_normalization_idempotent "data").1 (by decide) (by decide)

/-- C10 counterexample: one qualifying non-matching input, nested below the
source string: merge succeeds and uploads an empty object, but the qualifying
object is NOT deleted, refuting the claim that the qualifying objects are
deleted. -/
theorem C10_counterexample :
    (merge ⟨HeadBucketResult.ok, [⟨"d/x/jobA.log", "m"⟩, ⟨"d/keep.txt", "n"⟩]⟩
        "bkt" "d/out.txt" "job" "d" false).result = Except.ok ()
    ∧ qualifiesB "job" ⟨"d/x/jobA.log", "m"⟩ = true
    ∧ (⟨"d/x/jobA.log", "m"⟩ : S3Object)
        ∈ (merge ⟨HeadBucketResult.ok, [⟨"d/x/jobA.log", "m"⟩, ⟨"d/keep.txt", "n"⟩]⟩
            "bkt" "d/out.txt" "job" "d" false).store := by
  decide

/-- C10 witness: the amended statement at a concrete input — a qualifying
entry with a non-matching extension: success and a zero-byte upload. -/
theorem C10_witness :
    (merge ⟨HeadBucketResult.ok, [⟨"jobx.log", "m"⟩]⟩ "bkt" "out.txt" "job" "" true).result
      = Except.ok ()
    ∧ uploadCalls (merge ⟨HeadBucketResult.ok, [⟨"jobx.log", "m"⟩]⟩
        "bkt" "out.txt" "job" "" true).trace = [("out.txt", "")] := by
  have h := C10_empty_upload ⟨HeadBucketResult.ok, [⟨"jobx.log", "m"⟩]⟩
    "bkt" "out.txt" "job" "" true (by decide) (by decide) (by decide)
    ⟨⟨"jobx.log", "m"⟩, by decide, by decide⟩ (by decide)
  exact ⟨h.1, h.2.1⟩

end S3M
